import Mathlib

/-!
Shallow embedding of the vrchat-leaderboard-api reassembly-and-commit
protocol and its leaderboard read path, translated from `src/server.js`,
`src/server.mjs` and the variant files `src/unnamed/part_000`..`part_004`.

Modelling conventions:
* JS strings are `List Char` (or `String` for persistent keys and names).
* JS numbers are `Nat`.  Every numeric path modelled here manipulates
  non-negative integers, and each theorem that depends on exact arithmetic
  confines the values to at most `2 ^ 53` (usually far less), the range in
  which IEEE-754 doubles represent integers exactly, so `Nat` arithmetic
  agrees with the JS semantics there.  Loop guards of the form
  `Number.isFinite(v)` can never fire inside those ranges and are modelled
  as always-true.
* A SQL `scores` row is the structure `Row`; the table is a `List Row`
  whose keys (`user_id_hash`, a `PRIMARY KEY`) are pairwise distinct.
* HTTP handlers become functions from the client session (an `Option` of a
  session structure, `none` when the session map has no entry) and the
  table to a `Resp` (status code and plain-text body), the updated session
  and the updated table.  Where a claim concerns storage failure the
  handler also takes a `dbOk : Bool` telling whether its single SQL
  statement succeeds.
-/

/-- The 64-character symbol alphabet shared by all protocol variants
(`const ALPHABET = "ABC…xyz0123456789-_"` in `src/server.js` and in
`src/unnamed/part_001`/`part_002`). -/
def ALPHABET : List Char :=
  ['A','B','C','D','E','F','G','H','I','J','K','L','M',
   'N','O','P','Q','R','S','T','U','V','W','X','Y','Z',
   'a','b','c','d','e','f','g','h','i','j','k','l','m',
   'n','o','p','q','r','s','t','u','v','w','x','y','z',
   '0','1','2','3','4','5','6','7','8','9','-','_']

/-- Model of `idxToChar` from `src/server.js` (third variant, line 564):
`ALPHABET[i] || "_"` — the character at index `i`, or `'_'` out of range. -/
def idxToChar (i : Nat) : Char :=
  ALPHABET.getD i '_'

/-- Index of a character in the alphabet, as JS `ALPHABET.indexOf(c)` but
with absence as `none` instead of `-1`.  Shared core of `charToIdx`
(`src/server.js` line 565), `alphaIndex` (line 230) and `aIndex`
(`src/unnamed/part_001` line 48, `part_002` line 55). -/
def charToIdxN (c : Char) : Option Nat :=
  ALPHABET.findIdx? (fun x => x == c)

/-- Model of `charToIdx` from `src/server.js` line 565: `ALPHABET.indexOf(c)`,
returning `-1` when the character is not in the alphabet. -/
def charToIdx (c : Char) : Int :=
  match charToIdxN c with
  | some i => (i : Int)
  | none => -1

/-- One step of the positional accumulator `v = v * 64 + k` used by every
decoder in the repository. -/
def step64 (v k : Nat) : Nat := v * 64 + k

/-- The number denoted by a digit sequence, most-significant first
(`sum kᵢ * 64^(m-i)` via the fold `v = v * 64 + k`). -/
def valOfDigits (ks : List Nat) : Nat := ks.foldl step64 0

/-- The shared decoding loop of `decodeBase64AlphabetToNumber`
(`src/server.js` lines 233-239) and `decodeAlphaNum` (`src/unnamed/part_002`
lines 58-62): decode each symbol, failing (`null`) on a character outside
the alphabet, and accumulate `v = v * 64 + k`.  The JS loops also bail out
if `v` stops being finite; a double only becomes non-finite above 2^1024,
far beyond the post-loop caps checked by all callers, so that test is
modelled as always passing. -/
def decodeLoop : List Char → Nat → Option Nat
  | [], v => some v
  | c :: rest, v =>
    match charToIdxN c with
    | some k => decodeLoop rest (v * 64 + k)
    | none => none

/-- Decoding loop of `decode64ToNumber` (`src/unnamed/part_001` lines
68-74), which additionally fails whenever the accumulator exceeds `1e16`. -/
def decodeLoop16 : List Char → Nat → Option Nat
  | [], v => some v
  | c :: rest, v =>
    match charToIdxN c with
    | some k =>
      if 10 ^ 16 < v * 64 + k then none else decodeLoop16 rest (v * 64 + k)
    | none => none

/-- Model of `decodeBase64AlphabetToNumber(sym, cap)` from `src/server.js` lines
231-242: empty input decodes to `0`; an undecodable character or a value
exceeding `cap` yields `null` (the value is refused, not clamped). -/
def decodeBase64AlphabetToNumber (sym : List Char) (cap : Nat) : Option Nat :=
  if sym.isEmpty then some 0
  else
    match decodeLoop sym 0 with
    | some v => if cap < v then none else some v
    | none => none

/-- Model of `decodeAlphaNum(sym, cap)` from `src/unnamed/part_002` lines 56-65:
empty input decodes to `0`; an undecodable character yields `null`; a value
exceeding `cap` is clamped to `cap`. -/
def decodeAlphaNum (sym : List Char) (cap : Nat) : Option Nat :=
  if sym.isEmpty then some 0
  else (decodeLoop sym 0).map (fun v => min v cap)

/-- Model of `decode64ToNumber(sym, maxLen)` from `src/unnamed/part_001` lines
65-77: empty input decodes to `0`; the symbol string is truncated to
`maxLen` when `maxLen` is non-zero; an undecodable character or an
accumulator above `1e16` yields `null`; finally the value is clamped to
`1e13`. -/
def decode64ToNumber (sym : List Char) (maxLen : Nat) : Option Nat :=
  if sym.isEmpty then some 0
  else
    let sym := if maxLen ≠ 0 ∧ maxLen < sym.length then sym.take maxLen else sym
    (decodeLoop16 sym 0).map (fun v => min v (10 ^ 13))

/-- Model of `MAX_MS` from `src/server.js` line 214 (`1e12`), the cap passed to
`decodeBase64AlphabetToNumber` by `/tcommit`. -/
def MAX_MS : Nat := 10 ^ 12

/-- Capped symbol append shared by the buffer-building endpoints
(`src/server.js` `/b/:k`, `/n/:k`, `/t/:k`, `/g/:k` lines 295-428,
`src/unnamed/part_001` and `part_002` likewise): the decoded character is
appended only while the buffer is strictly below its cap, otherwise the
call is a no-op. -/
def cappedAppend (cap : Nat) (buf : List Char) (c : Char) : List Char :=
  if buf.length < cap then buf ++ [c] else buf

/-- A whole sequence of capped appends, as produced by a client issuing one
append call per symbol. -/
def appendAll (cap : Nat) (buf : List Char) (cs : List Char) : List Char :=
  cs.foldl (cappedAppend cap) buf

/-- The beacon-variant name append `/n/:k` from `src/server.js` lines
685-692: `k` is clamped into `0..63` and `idxToChar k` is appended with no
length cap (`s.nBuf = (s.nBuf||"") + ch`). -/
def beaconAppend (buf : List Char) (k : Nat) : List Char :=
  buf ++ [idxToChar (min k 63)]

/-- The literal `"Player"` used as the fallback display name. -/
def PlayerName : List Char := ['P','l','a','y','e','r']

/-- JS regex `\s` (ECMA-262 WhiteSpace ∪ LineTerminator) on a character:
TAB LF VT FF CR SP NBSP U+1680 U+2000-200A U+2028 U+2029 U+202F U+205F
U+3000 U+FEFF. -/
def jsSpace (c : Char) : Bool :=
  decide (c.toNat = 9) || decide (c.toNat = 10) || decide (c.toNat = 11) ||
  decide (c.toNat = 12) || decide (c.toNat = 13) || decide (c.toNat = 32) ||
  decide (c.toNat = 160) || decide (c.toNat = 5760) ||
  (decide (8192 ≤ c.toNat) && decide (c.toNat ≤ 8202)) ||
  decide (c.toNat = 8232) || decide (c.toNat = 8233) ||
  decide (c.toNat = 8239) || decide (c.toNat = 8287) ||
  decide (c.toNat = 12288) || decide (c.toNat = 65279)

/-- JS regex `\w`, i.e. `[A-Za-z0-9_]` (code points 65-90, 97-122, 48-57
and 95). -/
def isWordChar (c : Char) : Bool :=
  (decide (65 ≤ c.toNat) && decide (c.toNat ≤ 90)) ||
  (decide (97 ≤ c.toNat) && decide (c.toNat ≤ 122)) ||
  (decide (48 ≤ c.toNat) && decide (c.toNat ≤ 57)) ||
  decide (c.toNat = 95)

/-- Model of `replace(/\s+/g, " ")`: each maximal run of JS whitespace becomes a
single space.  The flag records whether the previous character processed
was part of a whitespace run. -/
def collapseAux : List Char → Bool → List Char
  | [], _ => []
  | c :: rest, prevSpace =>
    if jsSpace c then
      if prevSpace then collapseAux rest true
      else ' ' :: collapseAux rest true
    else c :: collapseAux rest false

/-- Model of `replace(/\s+/g, " ")` on a whole string. -/
def collapseWs (s : List Char) : List Char := collapseAux s false

/-- JS `String.prototype.trim`: strip whitespace from both ends. -/
def jsTrim (s : List Char) : List Char :=
  ((s.dropWhile jsSpace).reverse.dropWhile jsSpace).reverse

/-- The dash-to-underscore replace (`replace(/[-]/g, "_")` written with a
character class; `src/server.js` line 54) on one character. -/
def dashToUnderscore (c : Char) : Char :=
  if c == '-' then '_' else c

/-- Model of `replace(/[^\w _]/g, " ")` on one character (`src/server.js` line
55). -/
def nonWordToSpace (c : Char) : Char :=
  if isWordChar c || c == ' ' then c else ' '

/-- Model of `replace(/[^\w \-_]/g, " ")` on one character (`src/unnamed/part_003`
line 47): like `nonWordToSpace` but `-` is kept. -/
def nonWordKeepDash (c : Char) : Char :=
  if isWordChar c || c == ' ' || c == '-' then c else ' '

/-- Model of `replace(/[\r\n\t]/g, " ")` on one character (`src/unnamed/part_004`
line 71). -/
def crlfTabToSpace (c : Char) : Char :=
  if c == '\r' || c == '\n' || c == '\t' then ' ' else c

/-- Model of `if (!s) s = "Player"; if (s.length > 24) s = s.slice(0, 24)`
(`src/server.js` lines 58-59). -/
def playerFallbackTake24 (s : List Char) : List Char :=
  if s.isEmpty then PlayerName else s.take 24

/-- Model of `cleanName` from `src/server.js` lines 51-61 (first variant).  `none`
models a `null`/`undefined` argument.  Steps: falsy input gives
`"Player"`; `-` becomes `_`; every character outside `[\w _]` becomes a
space; whitespace runs collapse to one space; the ends are trimmed; an
empty result is replaced by `"Player"`; finally the name is cut to 24
characters. -/
def cleanNameJs (s? : Option (List Char)) : List Char :=
  match s? with
  | none => PlayerName
  | some s =>
    if s.isEmpty then PlayerName
    else
      playerFallbackTake24
        (jsTrim (collapseWs ((s.map dashToUnderscore).map nonWordToSpace)))

/-- Model of `cleanName` from `src/unnamed/part_003` lines 44-53: like `cleanNameJs`
but keeping `-` literally (regex `[^\w \-_]`) instead of mapping it to
`_`. -/
def cleanName003 (s? : Option (List Char)) : List Char :=
  match s? with
  | none => PlayerName
  | some s =>
    if s.isEmpty then PlayerName
    else
      playerFallbackTake24 (jsTrim (collapseWs (s.map nonWordKeepDash)))

/-- Model of `cleanName` from `src/unnamed/part_004` lines 69-74 (used by
`/pcommit`): falsy input gives `"Player"`; CR/LF/TAB become spaces;
whitespace runs collapse; ends are trimmed; the name is cut to 24
characters.  Note this variant has no second `"Player"` fallback. -/
def cleanName004 (s : List Char) : List Char :=
  if s.isEmpty then PlayerName
  else (jsTrim (collapseWs (s.map crlfTabToSpace))).take 24

/-- Value of a decimal digit string, as JS `Number` on a string of digit
characters (exact for at most 15 digits; `/pcommit` feeds it the digit
characters left after stripping non-digits). -/
def digitsVal (ds : List Char) : Nat :=
  ds.foldl (fun a c => a * 10 + (c.toNat - 48)) 0

/-- A row of the persistent `scores` table (`CREATE TABLE scores` in
`src/server.js` lines 34-44): primary key `user_id_hash`, `display_name`,
nullable `world_id`, and the two score columns `total_ms` and `beans`
(`beans_count` in `part_002`).  `updated_at` carries no protocol content
and is omitted. -/
structure Row where
  key : String
  name : String
  world : Option String
  totalMs : Nat
  beans : Nat
deriving DecidableEq

/-- SQL `EXISTS (SELECT 1 FROM scores WHERE user_id_hash = k)`: whether the
primary key is already present. -/
def hasKey (store : List Row) (k : String) : Bool :=
  store.any (fun r => r.key == k)

/-- The name upsert shared by `/ncommit` in `src/server.js` lines 330-336
and `src/unnamed/part_002` lines 128-134:
`INSERT (key, name, 0, 0) ON CONFLICT (user_id_hash) DO UPDATE SET
display_name = EXCLUDED.display_name` (the `world_id` column is not in the
insert list, so a fresh row has a NULL world). -/
def upsertNameRow (store : List Row) (k n : String) : List Row :=
  if hasKey store k then
    store.map (fun r => if r.key == k then { r with name := n } else r)
  else
    store ++ [⟨k, n, none, 0, 0⟩]

/-- Model of `SELECT MAX(total_ms) FROM scores WHERE display_name = n`
(`src/server.js` lines 339-343); `Number(rows[0]?.m_ms || 0)` turns the
NULL of an empty aggregate into `0`. -/
def maxMsFor (store : List Row) (n : String) : Nat :=
  (store.filter (fun r => r.name == n)).foldl (fun a r => Nat.max a r.totalMs) 0

/-- Model of `SELECT MAX(beans) FROM scores WHERE display_name = n`, as `maxMsFor`. -/
def maxBeansFor (store : List Row) (n : String) : Nat :=
  (store.filter (fun r => r.name == n)).foldl (fun a r => Nat.max a r.beans) 0

/-- Model of `UPDATE scores SET total_ms = GREATEST(total_ms, m), beans =
GREATEST(beans, mb) WHERE user_id_hash = k` (`src/server.js` lines
346-352). -/
def greatestUpdate (store : List Row) (k : String) (m mb : Nat) : List Row :=
  store.map (fun r =>
    if r.key == k then
      { r with totalMs := Nat.max r.totalMs m, beans := Nat.max r.beans mb }
    else r)

/-- Model of `DELETE FROM scores WHERE display_name = n AND user_id_hash <> k`
(`src/server.js` lines 354-357 and `src/unnamed/part_002` line 125). -/
def deleteOthersWithName (store : List Row) (n k : String) : List Row :=
  store.filter (fun r => !(r.name == n && !(r.key == k)))

/-- The storage effect of a successful `/ncommit` in `src/server.js` lines
328-357: upsert the display name for the current key, read the maxima of
both score columns over all rows bearing that name, fold them into the
current row with GREATEST, then delete every other row bearing the name. -/
def ncommitMergeJs (store : List Row) (k n : String) : List Row :=
  deleteOthersWithName
    (greatestUpdate (upsertNameRow store k n) k
      (maxMsFor (upsertNameRow store k n) n)
      (maxBeansFor (upsertNameRow store k n) n))
    n k

/-- The storage effect of a successful `/ncommit` in
`src/unnamed/part_002` lines 123-134: first delete every row with the same
display name under another key, then upsert the name for the current key —
no score propagation happens. -/
def ncommitMerge002 (store : List Row) (k n : String) : List Row :=
  upsertNameRow (deleteOthersWithName store n k) k n

/-- Merge action of the `/tcommit` upsert in `src/server.js` lines 396-402
on the single addressed row's `total_ms`: insert the decoded value when
the key is unseen, else `GREATEST(scores.total_ms, EXCLUDED.total_ms)`. -/
def tcommitMergeGreatest (stored : Option Nat) (v : Nat) : Option Nat :=
  match stored with
  | none => some v
  | some m => some (Nat.max m v)

/-- Merge action of the `/tcommit` upsert in `src/unnamed/part_001` lines
274-288 on the single addressed row's `total_ms`: insert the decoded value
when the key is unseen, else `total_ms = EXCLUDED.total_ms` (the comment in
the SQL reads `OVERWRITE (écrase l'ancienne valeur)`). -/
def tcommitMergeOverwrite (_stored : Option Nat) (v : Nat) : Option Nat :=
  some v

/-- Postgres `split_part(s, '_', i)` (1-indexed, empty string when the
field is missing), used by `part_001` to recover the display name and the
world from a `wn_<world>_<name>` key. -/
def splitPart (s : String) (i : Nat) : String :=
  (s.splitOn "_").getD (i - 1) ""

/-- The whole-table effect of the `/tcommit` upsert in
`src/unnamed/part_001` lines 274-288: insert a fresh row (name and world
recovered from the key via `split_part`) carrying the decoded value, or
overwrite `total_ms` of the existing row. -/
def upsertMsOverwrite (store : List Row) (k : String) (v : Nat) : List Row :=
  if hasKey store k then
    store.map (fun r => if r.key == k then { r with totalMs := v } else r)
  else
    store ++ [⟨k, splitPart k 3, some (splitPart k 2), v, 0⟩]

/-- The whole-table effect of the `/tcommit` upsert in `src/server.js`
lines 396-402: insert a fresh row named `"Player-" + key.slice(3)` carrying
the decoded value, or fold the value into the existing row with
GREATEST. -/
def upsertMsGreatest (store : List Row) (k : String) (v : Nat) : List Row :=
  if hasKey store k then
    store.map (fun r => if r.key == k then { r with totalMs := Nat.max r.totalMs v } else r)
  else
    store ++ [⟨k, "Player-" ++ k.drop 3, none, v, 0⟩]

/-- A plain-text HTTP response: status code and body token (`"ok"`,
`"noid"`, `"noop"`, `"bad"`, `"db"`, …). -/
structure Resp where
  status : Nat
  body : String
deriving DecidableEq

/-- Session entry of the strict-variant `src/server.js` lines 246-281:
fingerprint buffer plus an `active`/`buffer` pair per committable field. -/
structure SessJs2 where
  fpBuf : List Char
  nameActive : Bool
  nameBuf : List Char
  timeActive : Bool
  timeBuf : List Char
  beansActive : Bool
  beansBuf : List Char
deriving DecidableEq

/-- The `/ncommit` precondition of `src/server.js` lines 320-323:
`!s || s.fpBuf.length < 8 || !s.nameActive || !s.nameBuf.length`. -/
def ncommitGuardFails : Option SessJs2 → Bool
  | none => true
  | some s => decide (s.fpBuf.length < 8) || !s.nameActive || s.nameBuf.isEmpty

/-- Model of `/ncommit` from `src/server.js` lines 319-367 (storage-success
execution; the guard path issues no SQL at all, which is all the error
claims need).  On success the key is `"fp_" + fpBuf.slice(0,8)`, the
committed name is the raw name buffer, the merge is `ncommitMergeJs`, and
the name buffer is consumed. -/
def ncommitJs (s? : Option SessJs2) (store : List Row) :
    Resp × Option SessJs2 × List Row :=
  match s? with
  | none => (⟨400, "noid"⟩, none, store)
  | some s =>
    if decide (s.fpBuf.length < 8) || !s.nameActive || s.nameBuf.isEmpty then
      (⟨400, "noid"⟩, some s, store)
    else
      (⟨200, "ok"⟩, some { s with nameActive := false, nameBuf := [] },
        ncommitMergeJs store ("fp_" ++ (s.fpBuf.take 8).asString) s.nameBuf.asString)

/-- Model of `/tcommit` from `src/server.js` lines 385-412.  `dbOk` tells whether
the single upsert succeeds; the `catch` branch answers `500 "db"` and — the
buffer being cleared only after the `await` — leaves the session exactly as
it was. -/
def tcommitJs (s? : Option SessJs2) (store : List Row) (dbOk : Bool) :
    Resp × Option SessJs2 × List Row :=
  match s? with
  | none => (⟨400, "noid"⟩, none, store)
  | some s =>
    if decide (s.fpBuf.length < 8) || !s.timeActive || s.timeBuf.isEmpty then
      (⟨400, "noid"⟩, some s, store)
    else
      match decodeBase64AlphabetToNumber s.timeBuf MAX_MS with
      | none => (⟨400, "bad"⟩, some s, store)
      | some v =>
        if dbOk then
          (⟨200, "ok"⟩, some { s with timeActive := false, timeBuf := [] },
            upsertMsGreatest store ("fp_" ++ (s.fpBuf.take 8).asString) v)
        else (⟨500, "db"⟩, some s, store)

/-- Session entry of `src/unnamed/part_001` lines 116-136. -/
structure Sess001 where
  fpBuf : List Char
  nameBuf : List Char
  timeBuf : List Char
  beansBuf : List Char
  timeArmed : Bool
  beansArmed : Bool
  lastCommittedMs : Option Nat
  lastCommittedBeans : Option Nat
  worldId : Option String
  activeUserIdHash : Option String
deriving DecidableEq

/-- Model of `/tcommit` from `src/unnamed/part_001` lines 252-297.  An absent
session or unset `activeUserIdHash` is refused with `400 "noname"`; a
disarmed or empty time buffer is answered `200 "noop"` (clearing the
buffer, touching no storage); an undecodable buffer is refused `400 "bad"`;
a value equal to the last committed one is another `200 "noop"`; otherwise
the overwrite upsert runs (`dbOk` tells whether it succeeds — on failure
the buffer, cleared only after the `await`, is kept). -/
def tcommit001 (s? : Option Sess001) (store : List Row) (dbOk : Bool) :
    Resp × Option Sess001 × List Row :=
  match s? with
  | none => (⟨400, "noname"⟩, none, store)
  | some s =>
    match s.activeUserIdHash with
    | none => (⟨400, "noname"⟩, some s, store)
    | some key =>
      if !s.timeArmed || s.timeBuf.isEmpty then
        (⟨200, "noop"⟩, some { s with timeBuf := [], timeArmed := false }, store)
      else
        match decode64ToNumber s.timeBuf 32 with
        | none => (⟨400, "bad"⟩, some s, store)
        | some v =>
          if s.lastCommittedMs = some v then
            (⟨200, "noop"⟩, some { s with timeBuf := [], timeArmed := false }, store)
          else if dbOk then
            (⟨200, "ok"⟩,
              some { s with lastCommittedMs := some v, timeBuf := [], timeArmed := false },
              upsertMsOverwrite store key v)
          else (⟨500, "db"⟩, some s, store)

/-- Session entry of `src/unnamed/part_004` lines 88-106: a single pack
buffer. -/
structure SessP where
  packBuf : List Char
deriving DecidableEq

/-- A row of the `scores_simple` table of `src/unnamed/part_004` (primary
key `display_name`). -/
structure SimpleRow where
  name : List Char
  totalMs : Nat
deriving DecidableEq

/-- Model of `INSERT INTO scores_simple … ON CONFLICT (display_name) DO UPDATE SET
total_ms = EXCLUDED.total_ms` (`src/unnamed/part_004` lines 165-174). -/
def upsertSimple (store : List SimpleRow) (n : List Char) (v : Nat) : List SimpleRow :=
  if store.any (fun r => r.name == n) then
    store.map (fun r => if r.name == n then { r with totalMs := v } else r)
  else store ++ [⟨n, v⟩]

/-- Model of `/pcommit` from `src/unnamed/part_004` lines 147-180.  An absent or
empty pack buffer is refused `400 "nopack"`.  Otherwise the buffer is
cleared IMMEDIATELY (`const raw = s.packBuf; s.packBuf = ""`), then the
pack is split at the first `#`; a missing `#` is refused `400 "badpack"`;
the name part is cleaned, the digits of the rest form the milliseconds;
`dbOk` tells whether the single upsert succeeds, the `catch` branch
answering `500 "db"` — with the buffer already gone. -/
def pcommit (s? : Option SessP) (store : List SimpleRow) (dbOk : Bool) :
    Resp × Option SessP × List SimpleRow :=
  match s? with
  | none => (⟨400, "nopack"⟩, none, store)
  | some s =>
    if s.packBuf.isEmpty then (⟨400, "nopack"⟩, some s, store)
    else
      let raw := s.packBuf
      let s1 : SessP := ⟨[]⟩
      match raw.findIdx? (fun c => c == '#') with
      | none => (⟨400, "badpack"⟩, some s1, store)
      | some idx =>
        let name := cleanName004 (raw.take idx)
        let ms := digitsVal ((raw.drop (idx + 1)).filter Char.isDigit)
        if dbOk then (⟨200, "ok"⟩, some s1, upsertSimple store name ms)
        else (⟨500, "db"⟩, some s1, store)

/-- The ranking relation of `ORDER BY total_ms DESC, beans DESC`
(`queryTopRows`, `src/server.js` lines 130-137): `a` may precede `b` iff
`a` has the larger `total_ms`, or equal `total_ms` and `beans` at least as
large. -/
def topOrder (a b : Row) : Prop :=
  b.totalMs < a.totalMs ∨ (a.totalMs = b.totalMs ∧ b.beans ≤ a.beans)

instance : DecidableRel topOrder := fun a b => by
  unfold topOrder
  exact inferInstance

instance : IsTotal Row topOrder :=
  ⟨by intro a b; unfold topOrder; omega⟩

instance : IsTrans Row topOrder :=
  ⟨by intro a b c; unfold topOrder; omega⟩

/-- The ranking relation of the `src/server.mjs` leaderboard
(`ORDER BY total_ms DESC` only, lines 109-123). -/
def topOrderPrimary (a b : Row) : Prop :=
  b.totalMs ≤ a.totalMs

instance : DecidableRel topOrderPrimary := fun a b => by
  unfold topOrderPrimary
  exact inferInstance

instance : IsTotal Row topOrderPrimary :=
  ⟨by intro a b; unfold topOrderPrimary; omega⟩

instance : IsTrans Row topOrderPrimary :=
  ⟨by intro a b c; unfold topOrderPrimary; omega⟩

/-- Model of `queryTopRows(limit, world)` from `src/server.js` lines 130-137:
`SELECT … FROM scores [WHERE world_id = w] ORDER BY total_ms DESC, beans
DESC LIMIT limit`, modelled as filter, sort, truncate. -/
def queryTopRows (store : List Row) (limit : Nat) (world : Option String) : List Row :=
  let base :=
    match world with
    | some w => store.filter (fun r => r.world == some w)
    | none => store
  (List.insertionSort topOrder base).take limit

/-- The `/leaderboard.json` query of `src/server.mjs` lines 109-123:
`ORDER BY total_ms DESC LIMIT limit` with no secondary sort key.  SQL fixes
no order among rows with equal `total_ms`; the stable sort models the
admissible execution that keeps such ties in table order. -/
def queryTopRowsMjs (store : List Row) (limit : Nat) (world : Option String) : List Row :=
  let base :=
    match world with
    | some w => store.filter (fun r => r.world == some w)
    | none => store
  (List.insertionSort topOrderPrimary base).take limit

theorem alpha_roundtrip : ∀ k, k < 64 → charToIdxN (idxToChar k) = some k := by
  decide

theorem decodeLoop_map (ks : List Nat) (h64 : ∀ k ∈ ks, k < 64) :
    ∀ v, decodeLoop (ks.map idxToChar) v = some (ks.foldl step64 v) := by
  induction ks with
  | nil => intro v; rfl
  | cons k rest ih =>
    intro v
    have hk : k < 64 := h64 k (by simp)
    have hrest : ∀ x ∈ rest, x < 64 := fun x hx => h64 x (by simp [hx])
    simp [decodeLoop, alpha_roundtrip k hk, step64, ih hrest]

theorem le_foldl_step64 (ks : List Nat) : ∀ v : Nat, v ≤ ks.foldl step64 v := by
  induction ks with
  | nil => intro v; exact le_refl v
  | cons k rest ih =>
    intro v
    have h1 : v ≤ step64 v k := by unfold step64; omega
    exact le_trans h1 (ih (step64 v k))

theorem decodeLoop16_map (ks : List Nat) (h64 : ∀ k ∈ ks, k < 64) :
    ∀ v, ks.foldl step64 v ≤ 10 ^ 16 →
      decodeLoop16 (ks.map idxToChar) v = some (ks.foldl step64 v) := by
  induction ks with
  | nil => intro v _; rfl
  | cons k rest ih =>
    intro v hv
    have hk : k < 64 := h64 k (by simp)
    have hrest : ∀ x ∈ rest, x < 64 := fun x hx => h64 x (by simp [hx])
    have hv' : rest.foldl step64 (step64 v k) ≤ 10 ^ 16 := hv
    have h2 : step64 v k ≤ 10 ^ 16 :=
      le_trans (le_foldl_step64 rest (step64 v k)) hv'
    have hstep : ¬ 10 ^ 16 < v * 64 + k := not_lt.mpr h2
    have hgoal : decodeLoop16 (List.map idxToChar (k :: rest)) v
        = decodeLoop16 (List.map idxToChar rest) (v * 64 + k) := by
      simp only [List.map_cons, decodeLoop16, alpha_roundtrip k hk]
      rw [if_neg hstep]
    rw [hgoal]
    exact ih hrest (v * 64 + k) hv'

/-- C9: the 64-character alphabet is duplicate-free, so the codec is a
bijection on indices: for every `k < 64`, `charToIdx (idxToChar k) = k`. -/
theorem alphabet_codec_bijective :
    ALPHABET.Nodup ∧ ALPHABET.length = 64 ∧
    ∀ k, k < 64 → charToIdx (idxToChar k) = (k : Int) := by
  exact ⟨by decide, by decide, by decide⟩

theorem alphabet_codec_bijective_witness :
    (5 : Nat) < 64 ∧ charToIdx (idxToChar 5) = (5 : Int) :=
  ⟨by decide, alphabet_codec_bijective.2.2 5 (by decide)⟩

theorem foldl_greatest_some (vs : List Nat) :
    ∀ a, List.foldl tcommitMergeGreatest (some a) vs = some (vs.foldl Nat.max a) := by
  induction vs with
  | nil => intro a; rfl
  | cons v rest ih => intro a; simp [tcommitMergeGreatest, ih]

theorem foldl_overwrite (vs : List Nat) :
    ∀ s : Option Nat, vs ≠ [] → List.foldl tcommitMergeOverwrite s vs = vs.getLast? := by
  induction vs with
  | nil => intro s h; exact absurd rfl h
  | cons v rest ih =>
    intro s _
    cases rest with
    | nil => rfl
    | cons w ws =>
      have := ih (some v) (by simp)
      simpa [tcommitMergeOverwrite] using this

/-- C1 (amended): under the GREATEST upsert of `src/server.js` `/tcommit`,
the stored `total_ms` after any non-empty sequence of successful commits
equals the maximum of the committed values, and a single commit never
decreases the stored value; under the overwrite upsert of
`src/unnamed/part_001` `/tcommit`, the stored value is the LAST committed
value instead. -/
theorem greatest_upsert_folds_to_max (vs : List Nat) (h : vs ≠ []) :
    List.foldl tcommitMergeGreatest none vs = some (vs.foldl Nat.max 0) ∧
    (∀ m v, m ≤ Nat.max m v ∧ tcommitMergeGreatest (some m) v = some (Nat.max m v)) ∧
    List.foldl tcommitMergeOverwrite none vs = vs.getLast? := by
  refine ⟨?_, fun m v => ⟨Nat.le_max_left m v, rfl⟩, foldl_overwrite vs none h⟩
  cases vs with
  | nil => exact absurd rfl h
  | cons v rest => simp [tcommitMergeGreatest, foldl_greatest_some, Nat.zero_max]

theorem greatest_upsert_folds_to_max_witness :
    List.foldl tcommitMergeGreatest none [5000, 3000] =
      some (List.foldl Nat.max 0 [5000, 3000]) ∧
    List.foldl tcommitMergeOverwrite none [5000, 3000] = [5000, 3000].getLast? :=
  ⟨(greatest_upsert_folds_to_max [5000, 3000] (by decide)).1,
   (greatest_upsert_folds_to_max [5000, 3000] (by decide)).2.2⟩

/-- C1 counterexample: under the overwrite upsert of
`src/unnamed/part_001` `/tcommit`, committing 5000 then 3000 leaves 3000
in storage, not `max(5000, 3000) = 5000` — the second successful commit
made the stored value strictly smaller. -/
theorem overwrite_tcommit_not_monotonic :
    List.foldl tcommitMergeOverwrite none [5000, 3000] ≠
      some (List.foldl Nat.max 0 [5000, 3000]) ∧
    List.foldl tcommitMergeOverwrite none [5000, 3000] = some 3000 ∧
    (3000 : Nat) < 5000 :=
  ⟨by decide, by decide, by decide⟩

/-- C2 (amended): on an in-alphabet symbol string the decoders agree on the
positional value `v = v * 64 + k`, but they split on overflow handling:
`decodeAlphaNum` (`part_002`) clamps to its cap and succeeds;
`decodeBase64AlphabetToNumber` (`src/server.js`) REJECTS (`null`) any value
above its cap; `decode64ToNumber` (`part_001`) clamps to `1e13` for values
up to `1e16` (and rejects only above `1e16`). -/
theorem decode_clamp_split (ks : List Nat) (cap : Nat) (h64 : ∀ k ∈ ks, k < 64) :
    decodeAlphaNum (ks.map idxToChar) cap = some (min (valOfDigits ks) cap) ∧
    (cap < valOfDigits ks →
      decodeBase64AlphabetToNumber (ks.map idxToChar) cap = none) ∧
    (valOfDigits ks ≤ 10 ^ 16 →
      decode64ToNumber (ks.map idxToChar) 0 = some (min (valOfDigits ks) (10 ^ 13))) := by
  cases ks with
  | nil =>
    refine ⟨by simp [decodeAlphaNum, valOfDigits], ?_, ?_⟩
    · intro h
      simp [valOfDigits] at h
    · intro _
      simp [decode64ToNumber, valOfDigits]
  | cons k rest =>
    have hne : ¬ ((k :: rest).map idxToChar).isEmpty := by simp
    refine ⟨?_, ?_, ?_⟩
    · simp only [decodeAlphaNum, hne, if_false, decodeLoop_map (k :: rest) h64 0]
      rfl
    · intro hcap
      simp only [decodeBase64AlphabetToNumber, hne, if_false,
        decodeLoop_map (k :: rest) h64 0]
      simp [valOfDigits] at hcap
      simp [hcap]
    · intro hval
      simp only [decode64ToNumber, hne, if_false]
      have htr : ¬ ((0 : Nat) ≠ 0 ∧ 0 < ((k :: rest).map idxToChar).length) := by simp
      rw [if_neg htr, decodeLoop16_map (k :: rest) h64 0 hval]
      rfl

theorem decode_clamp_split_witness :
    decodeAlphaNum ((1 :: List.replicate 8 0).map idxToChar) (10 ^ 12) =
      some (min (valOfDigits (1 :: List.replicate 8 0)) (10 ^ 12)) ∧
    decodeBase64AlphabetToNumber ((1 :: List.replicate 8 0).map idxToChar) (10 ^ 12) =
      none :=
  ⟨(decode_clamp_split (1 :: List.replicate 8 0) (10 ^ 12) (by decide)).1,
   (decode_clamp_split (1 :: List.replicate 8 0) (10 ^ 12) (by decide)).2.1 (by decide)⟩

/-- C2 counterexample: the nine symbols encoding `64^8 = 281474976710656`
exceed the `/tcommit` cap `MAX_MS = 1e12`, and `decodeBase64AlphabetToNumber`
answers `null` — the decode is rejected, not clamped-and-returned as the
claim states. -/
theorem decodeBase64AlphabetToNumber_rejects_over_cap :
    (decodeBase64AlphabetToNumber ((1 :: List.replicate 8 0).map idxToChar)
      MAX_MS).isSome = false ∧
    MAX_MS < valOfDigits (1 :: List.replicate 8 0) :=
  ⟨by decide, by decide⟩

/-- C3: encoding digit indices `k₁…kₘ` (each `< 64`, at most 32 of them)
with `idxToChar` and decoding the resulting string reconstructs exactly the
positional value, both through `decode64ToNumber` (`part_001`, for values
within the `1e13` saturation cap) and through `decodeBase64AlphabetToNumber`
(`src/server.js`, for values within its `cap` argument). -/
theorem encode_decode_roundtrip (ks : List Nat) (cap : Nat)
    (h64 : ∀ k ∈ ks, k < 64) (hlen : ks.length ≤ 32)
    (hval : valOfDigits ks ≤ 10 ^ 13) (hcap : valOfDigits ks ≤ cap) :
    decode64ToNumber (ks.map idxToChar) 32 = some (valOfDigits ks) ∧
    decodeBase64AlphabetToNumber (ks.map idxToChar) cap = some (valOfDigits ks) := by
  cases ks with
  | nil => exact ⟨by simp [decode64ToNumber, valOfDigits], by simp [decodeBase64AlphabetToNumber, valOfDigits]⟩
  | cons k rest =>
    have hne : ¬ ((k :: rest).map idxToChar).isEmpty := by simp
    constructor
    · simp only [decode64ToNumber, hne, if_false]
      have htr : ¬ ((32 : Nat) ≠ 0 ∧ 32 < ((k :: rest).map idxToChar).length) := by
        simp only [List.length_map]
        omega
      have hval16 : List.foldl step64 0 (k :: rest) ≤ 10 ^ 16 :=
        le_trans hval (by norm_num)
      rw [if_neg htr, decodeLoop16_map (k :: rest) h64 0 hval16]
      exact congrArg some (Nat.min_eq_left hval)
    · simp only [decodeBase64AlphabetToNumber, hne, if_false,
        decodeLoop_map (k :: rest) h64 0]
      have : ¬ cap < valOfDigits (k :: rest) := not_lt.mpr hcap
      simp [valOfDigits] at this ⊢
      simp [this]

theorem encode_decode_roundtrip_witness :
    decode64ToNumber ([1, 2].map idxToChar) 32 = some (valOfDigits [1, 2]) ∧
    decodeBase64AlphabetToNumber ([1, 2].map idxToChar) (10 ^ 13) =
      some (valOfDigits [1, 2]) :=
  ⟨(encode_decode_roundtrip [1, 2] (10 ^ 13) (by decide) (by decide) (by decide)
      (by decide)).1,
   (encode_decode_roundtrip [1, 2] (10 ^ 13) (by decide) (by decide) (by decide)
      (by decide)).2⟩

theorem appendAll_eq (cap : Nat) (cs : List Char) :
    ∀ buf : List Char, buf.length ≤ cap →
      appendAll cap buf cs = buf ++ cs.take (cap - buf.length) := by
  induction cs with
  | nil => intro buf _; simp [appendAll]
  | cons c cs ih =>
    intro buf hlen
    by_cases hlt : buf.length < cap
    · have h1 : appendAll cap buf (c :: cs) = appendAll cap (buf ++ [c]) cs := by
        simp [appendAll, cappedAppend, hlt]
      rw [h1, ih (buf ++ [c]) (by simp; omega)]
      have htake : cap - buf.length = (cap - (buf.length + 1)) + 1 := by omega
      rw [htake]
      simp [List.take_succ_cons]
    · have h1 : appendAll cap buf (c :: cs) = appendAll cap buf cs := by
        simp [appendAll, cappedAppend, hlt]
      have hcap : cap - buf.length = 0 := by omega
      rw [h1, ih buf hlen, hcap]
      simp

/-- C4 (amended): in the capped variants every field buffer stays within
its cap: an append issued on a full buffer is a no-op and a buffer built
from scratch holds exactly the first `cap` symbols sent.  The
beacon-variant `/n/:k` of `src/server.js` (lines 685-692) appends with no
cap and so escapes this invariant. -/
theorem capped_append_spec (cap : Nat) (buf cs : List Char) (c : Char)
    (hlen : buf.length ≤ cap) :
    (appendAll cap buf cs).length ≤ cap ∧
    (buf.length = cap → cappedAppend cap buf c = buf) ∧
    appendAll cap [] cs = cs.take cap := by
  refine ⟨?_, ?_, ?_⟩
  · rw [appendAll_eq cap cs buf hlen]
    simp only [List.length_append, List.length_take]
    omega
  · intro hfull
    simp [cappedAppend, hfull]
  · have h := appendAll_eq cap cs [] (by simp)
    simpa using h

theorem capped_append_spec_witness :
    (appendAll 24 [] ['H', 'e', 'r', 'o']).length ≤ 24 ∧
    appendAll 24 [] ['H', 'e', 'r', 'o'] = ['H', 'e', 'r', 'o'].take 24 :=
  ⟨(capped_append_spec 24 [] ['H', 'e', 'r', 'o'] 'x' (by decide)).1,
   (capped_append_spec 24 [] ['H', 'e', 'r', 'o'] 'x' (by decide)).2.2⟩

/-- C4 counterexample: 25 appends through the beacon-variant `/n/:k`
(`src/server.js` lines 685-692) leave a name buffer of length 25,
exceeding the 24-symbol cap the claim asserts for every variant. -/
theorem beacon_append_exceeds_cap :
    ¬ ((List.foldl beaconAppend [] (List.replicate 25 7)).length ≤ 24) ∧
    (List.foldl beaconAppend [] (List.replicate 25 7)).length = 25 :=
  ⟨by decide, by decide⟩

/-- C5 (amended): commit preconditions protect storage, but not always
with an error status.  `src/server.js` `/ncommit` (lines 319-323) answers
`400 "noid"` and leaves both session and store untouched whenever the
session is absent, the identity buffer is short, the name phase is
inactive or the name buffer is empty.  `src/unnamed/part_001` `/tcommit`
(lines 252-261) also leaves the store untouched on an empty time buffer
and never acknowledges `"ok"` for it, but when an active key exists it
answers HTTP 200 `"noop"` — an acknowledged no-op, not an error. -/
theorem commit_precondition_guard (s? : Option SessJs2) (store : List Row)
    (s1 : Sess001) (store1 : List Row) (dbOk : Bool)
    (hguard : ncommitGuardFails s? = true) (hbuf : s1.timeBuf = []) :
    ncommitJs s? store = (⟨400, "noid"⟩, s?, store) ∧
    (tcommit001 (some s1) store1 dbOk).2.2 = store1 ∧
    (tcommit001 (some s1) store1 dbOk).1.body ≠ "ok" ∧
    (s1.activeUserIdHash ≠ none →
      (tcommit001 (some s1) store1 dbOk).1 = ⟨200, "noop"⟩) := by
  constructor
  · cases s? with
    | none => rfl
    | some s =>
      have hguard' :
          (decide (s.fpBuf.length < 8) || !s.nameActive || s.nameBuf.isEmpty) = true :=
        hguard
      simp [ncommitJs, hguard']
  · rcases hid : s1.activeUserIdHash with _ | key
    · refine ⟨by simp [tcommit001, hid], by simp [tcommit001, hid], ?_⟩
      intro hne
      exact absurd rfl hne
    · refine ⟨by simp [tcommit001, hid, hbuf], by simp [tcommit001, hid, hbuf], ?_⟩
      intro _
      simp [tcommit001, hid, hbuf]

theorem commit_precondition_guard_witness :
    ncommitJs none [] = (⟨400, "noid"⟩, none, []) ∧
    (tcommit001
      (some ⟨[], [], [], [], false, false, none, none, none, some "wn_default_Hero"⟩)
      [] true).2.2 = ([] : List Row) :=
  ⟨(commit_precondition_guard none []
      ⟨[], [], [], [], false, false, none, none, none, some "wn_default_Hero"⟩
      [] true rfl rfl).1,
   (commit_precondition_guard none []
      ⟨[], [], [], [], false, false, none, none, none, some "wn_default_Hero"⟩
      [] true rfl rfl).2.1⟩

/-- C5 counterexample: `/tcommit` of `src/unnamed/part_001`, called on a
session with a complete 8-symbol identity buffer and an active key but an
empty time buffer, answers status 200 (body `"noop"`) — the commit is
acknowledged as a no-op, not rejected with a distinguishable error
response as the claim states. -/
theorem tcommit001_empty_buffer_not_error_status :
    (tcommit001
      (some ⟨['A','A','A','A','A','A','A','A'], [], [], [], true, false,
        none, none, none, some "wn_w_Hero"⟩) [] true).1.status = 200 ∧
    ¬ 400 ≤ (tcommit001
      (some ⟨['A','A','A','A','A','A','A','A'], [], [], [], true, false,
        none, none, none, some "wn_w_Hero"⟩) [] true).1.status :=
  ⟨by decide, by decide⟩

/-- C6 (code bug, evaluated at the failing input): `/pcommit` of
`src/unnamed/part_004` clears the pack buffer BEFORE its write; with the
buffer holding `"Bob#100"` and a failing storage write it surfaces
`500 "db"`, yet the returned session's buffer is already empty and the
store unchanged — the assembled value is lost, so the retry the spec
promises cannot re-apply it.  By contrast `/tcommit` of `src/server.js`
(also cited by the claim) keeps its buffer intact on the same failure. -/
theorem pcommit_clears_buffer_before_failed_write :
    (pcommit (some ⟨['B','o','b','#','1','0','0']⟩) [] false).1 = ⟨500, "db"⟩ ∧
    (pcommit (some ⟨['B','o','b','#','1','0','0']⟩) [] false).2.1 = some ⟨[]⟩ ∧
    (['B','o','b','#','1','0','0'] : List Char) ≠ [] ∧
    (pcommit (some ⟨['B','o','b','#','1','0','0']⟩) [] false).2.2 = ([] : List SimpleRow) ∧
    (tcommitJs
      (some ⟨['A','A','A','A','A','A','A','A'], false, [], true, ['B','C'], false, []⟩)
      [] false).1 = ⟨500, "db"⟩ ∧
    (tcommitJs
      (some ⟨['A','A','A','A','A','A','A','A'], false, [], true, ['B','C'], false, []⟩)
      [] false).2.1 =
      some ⟨['A','A','A','A','A','A','A','A'], false, [], true, ['B','C'], false, []⟩ :=
  ⟨by decide, by decide, by decide, by decide, by decide, by decide⟩

/-- C7 (amended): `queryTopRows` of `src/server.js` honours the whole
contract — at most `limit` rows, sorted descending by `total_ms` with ties
descending by `beans`, and only rows of the requested world when a filter
is given.  The `src/server.mjs` leaderboard query sorts by `total_ms`
alone, so among rows with equal totals the secondary descending order is
not guaranteed (see the counterexample). -/
theorem queryTopRows_spec (store : List Row) (limit : Nat) (w? : Option String)
    (hlim : limit ≤ 2000) :
    (queryTopRows store limit w?).length ≤ limit ∧
    (queryTopRows store limit w?).Sorted topOrder ∧
    (∀ w, w? = some w → ∀ r ∈ queryTopRows store limit w?, r.world = some w) := by
  refine ⟨List.length_take_le _ _,
    (List.sorted_insertionSort topOrder _).sublist (List.take_sublist _ _), ?_⟩
  intro w hw r hr
  subst hw
  have h1 : r ∈ List.insertionSort topOrder
      (store.filter (fun x => x.world == some w)) :=
    (List.take_sublist _ _).subset hr
  have h2 : r ∈ store.filter (fun x => x.world == some w) :=
    (List.perm_insertionSort topOrder _).subset h1
  have h3 := List.of_mem_filter h2
  simpa using h3

theorem queryTopRows_spec_witness :
    (queryTopRows [⟨"k1", "A", some "Arena", 5000, 0⟩,
        ⟨"k2", "B", some "Arena", 9000, 0⟩] 1 (some "Arena")).length ≤ 1 ∧
    (queryTopRows [⟨"k1", "A", some "Arena", 5000, 0⟩,
        ⟨"k2", "B", some "Arena", 9000, 0⟩] 1 (some "Arena")).Sorted topOrder :=
  ⟨(queryTopRows_spec [⟨"k1", "A", some "Arena", 5000, 0⟩,
      ⟨"k2", "B", some "Arena", 9000, 0⟩] 1 (some "Arena") (by decide)).1,
   (queryTopRows_spec [⟨"k1", "A", some "Arena", 5000, 0⟩,
      ⟨"k2", "B", some "Arena", 9000, 0⟩] 1 (some "Arena") (by decide)).2.1⟩

/-- C7 counterexample: two rows tied on `total_ms = 100` with `beans` 1 and
2.  The `src/server.mjs` query (`ORDER BY total_ms DESC` only; ties keep
table order, an admissible SQL execution) returns the `beans = 1` row
first, so the output is not sorted with ties broken descending by the
secondary score as the claim states. -/
theorem mjs_leaderboard_ties_not_secondary_sorted :
    queryTopRowsMjs [⟨"k1", "A", some "w", 100, 1⟩, ⟨"k2", "B", some "w", 100, 2⟩]
      50 none =
      [⟨"k1", "A", some "w", 100, 1⟩, ⟨"k2", "B", some "w", 100, 2⟩] ∧
    ¬ (queryTopRowsMjs [⟨"k1", "A", some "w", 100, 1⟩, ⟨"k2", "B", some "w", 100, 2⟩]
      50 none).Sorted topOrder := by
  have h1 : queryTopRowsMjs
      [⟨"k1", "A", some "w", 100, 1⟩, ⟨"k2", "B", some "w", 100, 2⟩] 50 none =
      [⟨"k1", "A", some "w", 100, 1⟩, ⟨"k2", "B", some "w", 100, 2⟩] := by decide
  have h2 : ¬ topOrder ⟨"k1", "A", some "w", 100, 1⟩ ⟨"k2", "B", some "w", 100, 2⟩ := by
    decide
  refine ⟨h1, ?_⟩
  intro hs
  rw [h1] at hs
  exact h2 (List.rel_of_pairwise_cons hs (by simp))

theorem jsSpace_not_dash (c : Char) (h : jsSpace c = true) : (c == '-') = false := by
  by_cases hc : c = '-'
  · subst hc
    exact absurd h (by decide)
  · simp [hc]

theorem jsSpace_not_word (c : Char) (h : jsSpace c = true) : isWordChar c = false := by
  rw [Bool.eq_false_iff]
  intro hw
  simp only [jsSpace, Bool.or_eq_true, Bool.and_eq_true, decide_eq_true_eq] at h
  simp only [isWordChar, Bool.or_eq_true, Bool.and_eq_true, decide_eq_true_eq] at hw
  omega

theorem mem_collapseAux (l : List Char) :
    ∀ b c, c ∈ collapseAux l b → c = ' ' ∨ c ∈ l := by
  induction l with
  | nil => intro b c h; simp [collapseAux] at h
  | cons x rest ih =>
    intro b c h
    by_cases hx : jsSpace x = true
    · cases b with
      | true =>
        have h' : c ∈ collapseAux rest true := by simpa [collapseAux, hx] using h
        rcases ih true c h' with h1 | h1
        · exact Or.inl h1
        · exact Or.inr (List.mem_cons_of_mem x h1)
      | false =>
        have h' : c = ' ' ∨ c ∈ collapseAux rest true := by
          simpa [collapseAux, hx] using h
        rcases h' with h1 | h1
        · exact Or.inl h1
        · rcases ih true c h1 with h2 | h2
          · exact Or.inl h2
          · exact Or.inr (List.mem_cons_of_mem x h2)
    · have hx' : jsSpace x = false := by simpa using hx
      have h' : c = x ∨ c ∈ collapseAux rest false := by
        simpa [collapseAux, hx'] using h
      rcases h' with h1 | h1
      · exact Or.inr (h1 ▸ List.mem_cons_self x rest)
      · rcases ih false c h1 with h2 | h2
        · exact Or.inl h2
        · exact Or.inr (List.mem_cons_of_mem x h2)

theorem dropWhile_all (p : Char → Bool) (l : List Char)
    (h : ∀ c ∈ l, p c = true) : l.dropWhile p = [] := by
  induction l with
  | nil => rfl
  | cons x rest ih =>
    rw [List.dropWhile_cons, if_pos (h x (List.mem_cons_self x rest))]
    exact ih (fun c hc => h c (List.mem_cons_of_mem x hc))

theorem jsTrim_all_space (l : List Char) (h : ∀ c ∈ l, jsSpace c = true) :
    jsTrim l = [] := by
  unfold jsTrim
  rw [dropWhile_all jsSpace l h]
  rfl

theorem collapseWs_all_space (l : List Char) (h : ∀ c ∈ l, jsSpace c = true) :
    ∀ c ∈ collapseWs l, jsSpace c = true := by
  intro c hc
  rcases mem_collapseAux l false c hc with h1 | h1
  · subst h1; decide
  · exact h c h1

theorem nonWordToSpace_of_space (c : Char) (h : jsSpace c = true) :
    nonWordToSpace (dashToUnderscore c) = ' ' := by
  unfold dashToUnderscore
  rw [jsSpace_not_dash c h]
  simp only [Bool.false_eq_true, if_false]
  unfold nonWordToSpace
  by_cases hsp : c = ' '
  · subst hsp; simp
  · rw [jsSpace_not_word c h]
    have hne : (c == ' ') = false := by simp [hsp]
    rw [hne]
    simp

theorem nonWordKeepDash_of_space (c : Char) (h : jsSpace c = true) :
    nonWordKeepDash c = ' ' := by
  unfold nonWordKeepDash
  rw [jsSpace_not_word c h, jsSpace_not_dash c h]
  by_cases hsp : c = ' '
  · subst hsp; simp
  · have hne : (c == ' ') = false := by simp [hsp]
    rw [hne]
    simp

theorem playerFallbackTake24_bounds (s3 : List Char) :
    1 ≤ (playerFallbackTake24 s3).length ∧ (playerFallbackTake24 s3).length ≤ 24 := by
  unfold playerFallbackTake24
  by_cases h : s3.isEmpty
  · rw [if_pos h]
    exact ⟨by decide, by decide⟩
  · rw [if_neg h]
    have hne : s3 ≠ [] := by simpa [List.isEmpty_iff] using h
    have hpos : 0 < s3.length := List.length_pos.mpr hne
    rw [List.length_take]
    omega

/-- C10: the name sanitizers cited by the claim (`cleanName` of
`src/server.js` lines 51-61 and of `src/unnamed/part_003` lines 44-53)
always return a name of between 1 and 24 characters, and substitute
`"Player"` for null/undefined input (`none`), for the empty string and for
whitespace-only input (whose sanitization leaves nothing). -/
theorem cleanName_nonempty_bounded (s? : Option (List Char)) :
    (1 ≤ (cleanNameJs s?).length ∧ (cleanNameJs s?).length ≤ 24) ∧
    (1 ≤ (cleanName003 s?).length ∧ (cleanName003 s?).length ≤ 24) ∧
    (∀ s, s? = some s → (∀ c ∈ s, jsSpace c = true) →
      cleanNameJs s? = PlayerName ∧ cleanName003 s? = PlayerName) := by
  refine ⟨?_, ?_, ?_⟩
  · match s? with
    | none => exact ⟨by decide, by decide⟩
    | some s =>
      by_cases hs : s.isEmpty
      · simp only [cleanNameJs]
        rw [if_pos hs]
        exact ⟨by decide, by decide⟩
      · simp only [cleanNameJs]
        rw [if_neg hs]
        exact playerFallbackTake24_bounds _
  · match s? with
    | none => exact ⟨by decide, by decide⟩
    | some s =>
      by_cases hs : s.isEmpty
      · simp only [cleanName003]
        rw [if_pos hs]
        exact ⟨by decide, by decide⟩
      · simp only [cleanName003]
        rw [if_neg hs]
        exact playerFallbackTake24_bounds _
  · rintro s rfl hsp
    constructor
    · by_cases hs : s.isEmpty
      · simp only [cleanNameJs]
        rw [if_pos hs]
      · simp only [cleanNameJs]
        rw [if_neg hs]
        have hmap : ∀ c ∈ (s.map dashToUnderscore).map nonWordToSpace,
            jsSpace c = true := by
          intro c hc
          simp only [List.map_map, List.mem_map, Function.comp] at hc
          rcases hc with ⟨c0, hc0, hc⟩
          rw [nonWordToSpace_of_space c0 (hsp c0 hc0)] at hc
          rw [← hc]
          decide
        rw [jsTrim_all_space _ (collapseWs_all_space _ hmap)]
        rfl
    · by_cases hs : s.isEmpty
      · simp only [cleanName003]
        rw [if_pos hs]
      · simp only [cleanName003]
        rw [if_neg hs]
        have hmap : ∀ c ∈ s.map nonWordKeepDash, jsSpace c = true := by
          intro c hc
          simp only [List.mem_map] at hc
          rcases hc with ⟨c0, hc0, hc⟩
          rw [nonWordKeepDash_of_space c0 (hsp c0 hc0)] at hc
          rw [← hc]
          decide
        rw [jsTrim_all_space _ (collapseWs_all_space _ hmap)]
        rfl

theorem cleanName_nonempty_bounded_witness :
    cleanNameJs (some [' ', ' ']) = PlayerName ∧
    1 ≤ (cleanNameJs (some [' ', ' '])).length ∧
    (cleanName003 (some [' ', ' '])).length ≤ 24 :=
  ⟨((cleanName_nonempty_bounded (some [' ', ' '])).2.2 [' ', ' '] rfl (by decide)).1,
   (cleanName_nonempty_bounded (some [' ', ' '])).1.1,
   (cleanName_nonempty_bounded (some [' ', ' '])).2.1.2⟩

theorem hasKey_false_not_mem (store : List Row) (k : String)
    (h : hasKey store k = false) : ∀ r ∈ store, r.key ≠ k := by
  intro r hr hk
  have htrue : hasKey store k = true := by
    unfold hasKey
    rw [List.any_eq_true]
    exact ⟨r, hr, by simp [hk]⟩
  rw [h] at htrue
  exact Bool.false_ne_true htrue

theorem mem_upsertNameRow (store : List Row) (k n : String) (r : Row)
    (hr : r ∈ upsertNameRow store k n) :
    (r.key = k ∧ r.name = n) ∨ (r ∈ store ∧ r.key ≠ k) := by
  unfold upsertNameRow at hr
  by_cases hk : hasKey store k = true
  · rw [if_pos hk] at hr
    rcases List.mem_map.mp hr with ⟨r0, hr0, hmap⟩
    by_cases h0 : (r0.key == k) = true
    · rw [if_pos h0] at hmap
      left
      rw [← hmap]
      exact ⟨by simpa using h0, rfl⟩
    · rw [if_neg h0] at hmap
      right
      rw [← hmap]
      exact ⟨hr0, by simpa using h0⟩
  · rw [if_neg hk] at hr
    rcases List.mem_append.mp hr with h1 | h1
    · have hfk : hasKey store k = false := by simpa using hk
      exact Or.inr ⟨h1, hasKey_false_not_mem store k hfk r h1⟩
    · left
      have hrn : r = (⟨k, n, none, 0, 0⟩ : Row) := by simpa using h1
      rw [hrn]
      exact ⟨rfl, rfl⟩

theorem mem_upsertNameRow_of_ne (store : List Row) (k n : String) (r : Row)
    (hr : r ∈ store) (hne : r.key ≠ k) : r ∈ upsertNameRow store k n := by
  unfold upsertNameRow
  by_cases hk : hasKey store k = true
  · rw [if_pos hk]
    have hid : (if (r.key == k) = true then ({ r with name := n } : Row) else r) = r := by
      rw [if_neg (by simpa using hne)]
    rw [← hid]
    exact List.mem_map_of_mem _ hr
  · rw [if_neg hk]
    exact List.mem_append_left _ hr

theorem mem_upsertNameRow_key (store : List Row) (k n : String) (r : Row)
    (hr : r ∈ store) (hk : r.key = k) :
    ({ r with name := n } : Row) ∈ upsertNameRow store k n := by
  unfold upsertNameRow
  have hkey : hasKey store k = true := by
    unfold hasKey
    rw [List.any_eq_true]
    exact ⟨r, hr, by simp [hk]⟩
  rw [if_pos hkey]
  have hid : (if (r.key == k) = true then ({ r with name := n } : Row) else r) =
      { r with name := n } := by
    rw [if_pos (by simp [hk])]
  rw [← hid]
  exact List.mem_map_of_mem _ hr

theorem upsertNameRow_exists (store : List Row) (k n : String) :
    ∃ r ∈ upsertNameRow store k n, r.key = k ∧ r.name = n := by
  by_cases hk : hasKey store k = true
  · unfold hasKey at hk
    rw [List.any_eq_true] at hk
    rcases hk with ⟨r0, hr0, hbeq⟩
    have hk0 : r0.key = k := by simpa using hbeq
    exact ⟨{ r0 with name := n }, mem_upsertNameRow_key store k n r0 hr0 hk0, hk0, rfl⟩
  · refine ⟨⟨k, n, none, 0, 0⟩, ?_, rfl, rfl⟩
    unfold upsertNameRow
    rw [if_neg hk]
    exact List.mem_append_right _ (by simp)

theorem init_le_foldl_max (f : Row → Nat) (l : List Row) :
    ∀ a : Nat, a ≤ l.foldl (fun acc x => Nat.max acc (f x)) a := by
  induction l with
  | nil => intro a; exact le_refl a
  | cons x rest ih =>
    intro a
    exact le_trans (Nat.le_max_left a (f x)) (ih (Nat.max a (f x)))

theorem le_foldl_max (f : Row → Nat) (l : List Row) (r : Row) (hr : r ∈ l) :
    ∀ a : Nat, f r ≤ l.foldl (fun acc x => Nat.max acc (f x)) a := by
  induction l with
  | nil => cases hr
  | cons x rest ih =>
    intro a
    rcases List.mem_cons.mp hr with h1 | h1
    · subst h1
      exact le_trans (Nat.le_max_right a (f r)) (init_le_foldl_max f rest _)
    · exact ih h1 _

theorem maxMsFor_ge (store : List Row) (n : String) (r : Row)
    (hr : r ∈ store) (hn : r.name = n) : r.totalMs ≤ maxMsFor store n := by
  unfold maxMsFor
  have hf : r ∈ store.filter (fun x => x.name == n) :=
    List.mem_filter.mpr ⟨hr, by simp [hn]⟩
  exact le_foldl_max (fun x => x.totalMs) _ r hf 0

theorem maxBeansFor_ge (store : List Row) (n : String) (r : Row)
    (hr : r ∈ store) (hn : r.name = n) : r.beans ≤ maxBeansFor store n := by
  unfold maxBeansFor
  have hf : r ∈ store.filter (fun x => x.name == n) :=
    List.mem_filter.mpr ⟨hr, by simp [hn]⟩
  exact le_foldl_max (fun x => x.beans) _ r hf 0

theorem mem_greatestUpdate (store : List Row) (k : String) (m mb : Nat) (r : Row)
    (hr : r ∈ greatestUpdate store k m mb) (hk : r.key = k) :
    m ≤ r.totalMs ∧ mb ≤ r.beans := by
  unfold greatestUpdate at hr
  rcases List.mem_map.mp hr with ⟨r0, hr0, hmap⟩
  by_cases h0 : (r0.key == k) = true
  · rw [if_pos h0] at hmap
    rw [← hmap]
    exact ⟨Nat.le_max_right _ _, Nat.le_max_right _ _⟩
  · rw [if_neg h0] at hmap
    rw [← hmap] at hk
    exact absurd hk (by simpa using h0)

theorem greatestUpdate_keeps (store : List Row) (k : String) (m mb : Nat) (r : Row)
    (hr : r ∈ store) (hk : r.key = k) :
    ({ r with totalMs := Nat.max r.totalMs m, beans := Nat.max r.beans mb } : Row)
      ∈ greatestUpdate store k m mb := by
  unfold greatestUpdate
  have hid : (if (r.key == k) = true then
      ({ r with totalMs := Nat.max r.totalMs m, beans := Nat.max r.beans mb } : Row)
      else r) =
      { r with totalMs := Nat.max r.totalMs m, beans := Nat.max r.beans mb } := by
    rw [if_pos (by simp [hk])]
  rw [← hid]
  exact List.mem_map_of_mem _ hr

theorem mem_deleteOthers (store : List Row) (n k : String) (r : Row)
    (hr : r ∈ deleteOthersWithName store n k) :
    r ∈ store ∧ (r.name = n → r.key = k) := by
  unfold deleteOthersWithName at hr
  have h1 := List.mem_filter.mp hr
  refine ⟨h1.1, ?_⟩
  intro hn
  have h2 := h1.2
  simp [hn] at h2
  exact h2

theorem mem_deleteOthers_of_key (store : List Row) (n k : String) (r : Row)
    (hr : r ∈ store) (hk : r.key = k) : r ∈ deleteOthersWithName store n k := by
  unfold deleteOthersWithName
  refine List.mem_filter.mpr ⟨hr, ?_⟩
  simp [hk]

theorem upsertKeyPreserved (k n : String) (x : Row) :
    (if (x.key == k) = true then ({ x with name := n } : Row) else x).key = x.key := by
  by_cases hx : (x.key == k) = true
  · rw [if_pos hx]
  · rw [if_neg hx]

theorem greatestKeyPreserved (k : String) (m mb : Nat) (x : Row) :
    (if (x.key == k) = true then
      ({ x with totalMs := Nat.max x.totalMs m, beans := Nat.max x.beans mb } : Row)
     else x).key = x.key := by
  by_cases hx : (x.key == k) = true
  · rw [if_pos hx]
  · rw [if_neg hx]

theorem pairwise_upsertNameRow (store : List Row) (k n : String)
    (h : store.Pairwise (fun a b => a.key ≠ b.key)) :
    (upsertNameRow store k n).Pairwise (fun a b => a.key ≠ b.key) := by
  unfold upsertNameRow
  by_cases hk : hasKey store k = true
  · rw [if_pos hk, List.pairwise_map]
    refine h.imp ?_
    intro a b hab
    rw [upsertKeyPreserved k n a, upsertKeyPreserved k n b]
    exact hab
  · rw [if_neg hk, List.pairwise_append]
    refine ⟨h, by simp, ?_⟩
    intro a ha b hb
    have hb' : b = (⟨k, n, none, 0, 0⟩ : Row) := by simpa using hb
    rw [hb']
    have hfk : hasKey store k = false := by simpa using hk
    exact hasKey_false_not_mem store k hfk a ha

theorem pairwise_greatestUpdate (store : List Row) (k : String) (m mb : Nat)
    (h : store.Pairwise (fun a b => a.key ≠ b.key)) :
    (greatestUpdate store k m mb).Pairwise (fun a b => a.key ≠ b.key) := by
  unfold greatestUpdate
  rw [List.pairwise_map]
  refine h.imp ?_
  intro a b hab
  rw [greatestKeyPreserved k m mb a, greatestKeyPreserved k m mb b]
  exact hab

theorem pairwise_deleteOthers (store : List Row) (n k : String)
    (h : store.Pairwise (fun a b => a.key ≠ b.key)) :
    (deleteOthersWithName store n k).Pairwise (fun a b => a.key ≠ b.key) :=
  h.sublist (List.filter_sublist store)

/-- C8 (amended): the max-propagating reconcile of `src/server.js`
`/ncommit` works as the claim states — on a key-unique table, after a name
commit exactly one row bears the committed name (the current key's row,
which exists), keys stay unique, and the surviving row's scores dominate
every prior row that bore the name or the key.  The `/ncommit` of
`src/unnamed/part_002` deletes the duplicate rows WITHOUT propagating
their scores (see the counterexample). -/
theorem ncommit_merge_reconciles (store : List Row) (k n : String)
    (hkeys : store.Pairwise (fun a b => a.key ≠ b.key)) :
    (∃ r ∈ ncommitMergeJs store k n, r.key = k ∧ r.name = n) ∧
    (∀ r ∈ ncommitMergeJs store k n, r.name = n → r.key = k) ∧
    (ncommitMergeJs store k n).Pairwise (fun a b => a.key ≠ b.key) ∧
    (∀ r ∈ ncommitMergeJs store k n, r.key = k →
      ∀ r' ∈ store, r'.name = n ∨ r'.key = k →
        r'.totalMs ≤ r.totalMs ∧ r'.beans ≤ r.beans) := by
  unfold ncommitMergeJs
  set s1 := upsertNameRow store k n with hs1
  set m := maxMsFor s1 n with hm
  set mb := maxBeansFor s1 n with hmb
  set s2 := greatestUpdate s1 k m mb with hs2
  refine ⟨?_, ?_, ?_, ?_⟩
  · obtain ⟨r1, hr1, hr1k, hr1n⟩ := upsertNameRow_exists store k n
    refine ⟨{ r1 with totalMs := Nat.max r1.totalMs m, beans := Nat.max r1.beans mb },
      ?_, hr1k, hr1n⟩
    exact mem_deleteOthers_of_key s2 n k _
      (greatestUpdate_keeps s1 k m mb r1 hr1 hr1k) hr1k
  · intro r hr hn
    exact (mem_deleteOthers s2 n k r hr).2 hn
  · exact pairwise_deleteOthers s2 n k
      (pairwise_greatestUpdate s1 k m mb (pairwise_upsertNameRow store k n hkeys))
  · intro r hr hk r' hr' hcase
    have hr2 : r ∈ s2 := (mem_deleteOthers s2 n k r hr).1
    have hge := mem_greatestUpdate s1 k m mb r hr2 hk
    by_cases hkk : r'.key = k
    · have h1 := mem_upsertNameRow_key store k n r' hr' hkk
      have h2 : ({ r' with name := n } : Row).totalMs ≤ m := maxMsFor_ge s1 n _ h1 rfl
      have h3 : ({ r' with name := n } : Row).beans ≤ mb := maxBeansFor_ge s1 n _ h1 rfl
      exact ⟨le_trans h2 hge.1, le_trans h3 hge.2⟩
    · have hn' : r'.name = n := by
        rcases hcase with h | h
        · exact h
        · exact absurd h hkk
      have h1 := mem_upsertNameRow_of_ne store k n r' hr' hkk
      exact ⟨le_trans (maxMsFor_ge s1 n r' h1 hn') hge.1,
             le_trans (maxBeansFor_ge s1 n r' h1 hn') hge.2⟩

theorem ncommit_merge_reconciles_witness :
    (∃ r ∈ ncommitMergeJs [⟨"fp_B", "Hero", none, 9000, 5⟩] "fp_A" "Hero",
      r.key = "fp_A" ∧ r.name = "Hero") ∧
    (∀ r ∈ ncommitMergeJs [⟨"fp_B", "Hero", none, 9000, 5⟩] "fp_A" "Hero",
      r.key = "fp_A" →
      ∀ r' ∈ [(⟨"fp_B", "Hero", none, 9000, 5⟩ : Row)],
        r'.name = "Hero" ∨ r'.key = "fp_A" →
        r'.totalMs ≤ r.totalMs ∧ r'.beans ≤ r.beans) :=
  ⟨(ncommit_merge_reconciles [⟨"fp_B", "Hero", none, 9000, 5⟩] "fp_A" "Hero"
      (by simp)).1,
   (ncommit_merge_reconciles [⟨"fp_B", "Hero", none, 9000, 5⟩] "fp_A" "Hero"
      (by simp)).2.2.2⟩

/-- C8 counterexample: in `src/unnamed/part_002`, committing the name
`"Hero"` for key `fp_A` while the row `(fp_B, Hero, 9000 ms, 5 beans)`
exists deletes that row and leaves `(fp_A, Hero, 0, 0)` — the superseded
row's scores are NOT propagated onto the surviving key, contradicting the
claim's "its scores are at least the maxima of both prior rows". -/
theorem ncommit002_drops_superseded_scores :
    ncommitMerge002 [⟨"fp_B", "Hero", none, 9000, 5⟩] "fp_A" "Hero" =
      [⟨"fp_A", "Hero", none, 0, 0⟩] ∧
    ¬ (∀ r ∈ ncommitMerge002 [⟨"fp_B", "Hero", none, 9000, 5⟩] "fp_A" "Hero",
        r.key = "fp_A" →
        ∀ r' ∈ [(⟨"fp_B", "Hero", none, 9000, 5⟩ : Row)], r'.name = "Hero" →
          r'.totalMs ≤ r.totalMs ∧ r'.beans ≤ r.beans) :=
  ⟨by decide, by decide⟩
